import Mathlib

/-!
Verification of the semantic-change measurement pipeline of
`calculate_semantic_change.py` (EMBEDDIA/SemEval2020-Task1).

The script is shallowly embedded: numpy float arrays become `List ℝ`,
cluster labels become `List ℤ`, rational-only computations (the sklearn
affinity-propagation preference model) use `ℚ`, Python exceptions become
`Except String`, and the in-place numpy mutation of `compute_jsd` is made
explicit by returning the final array contents.
-/

namespace SemEval

/-! ### Jensen-Shannon divergence primitives (`compute_jsd`, lines 18-24) -/

/-- Embedding of `p /= p.sum()` (line 21 / 22): every entry of the array is
divided by the array's sum. -/
noncomputable def normalize (p : List ℝ) : List ℝ :=
  p.map (fun x => x / p.sum)

/-- Embedding of one term of `scipy.special.rel_entr(p, q)`: `x * log (x / y)`
with the convention `0 * log (0 / y) = 0`.  (scipy returns `+inf` when
`x > 0 ∧ y = 0`; that case never arises in this script because the second
argument is always the midpoint `m = (p + q) / 2`, which is positive wherever
`p` is.) -/
noncomputable def relEntr (x y : ℝ) : ℝ :=
  if x = 0 then 0 else x * Real.log (x / y)

/-- Sum of the elementwise relative-entropy terms of two aligned vectors:
the Kullback-Leibler divergence `KL(p ‖ q)` with the `0 · log 0 = 0`
convention. -/
noncomputable def relEntrSum (p q : List ℝ) : ℝ :=
  ((p.zip q).map (fun z => relEntr z.1 z.2)).sum

/-- Embedding of `scipy.stats.entropy(pk, qk)`: both inputs are normalized to
sum to 1, then the relative-entropy terms are summed. -/
noncomputable def scipyEntropy (p q : List ℝ) : ℝ :=
  relEntrSum (normalize p) (normalize q)

/-- Embedding of `compute_jsd` (lines 18-24): normalize `p` and `q` in place,
form the midpoint `m = (p + q) / 2`, and return
`(entropy(p, m) + entropy(q, m)) / 2`. -/
noncomputable def compute_jsd (p q : List ℝ) : ℝ :=
  let p2 := normalize p
  let q2 := normalize q
  let m := List.zipWith (fun a b => (a + b) / 2) p2 q2
  (scipyEntropy p2 m + scipyEntropy q2 m) / 2

/-- Embedding of the caller-observable behaviour of `compute_jsd` on numpy
float arrays.  `np.asarray` on an ndarray returns the same object, so the
in-place divisions `p /= p.sum()` and `q /= q.sum()` (lines 21-22) overwrite
the caller's arrays; the second and third components are the array contents
the caller observes after the call. -/
noncomputable def compute_jsd_state (p q : List ℝ) : ℝ × List ℝ × List ℝ :=
  (compute_jsd p q, normalize p, normalize q)

/-- Embedding of `compute_divergence_from_cluster_labels` (lines 78-94):
collect the union of labels (`set(labels_all)`, here deduplicated in first
occurrence order — the JSD value does not depend on the enumeration order),
count each label's occurrences in each slice, normalize the two count
vectors, and hand them to `compute_jsd`. -/
noncomputable def compute_divergence_from_cluster_labels
    (labels1 labels2 : List ℤ) : ℝ :=
  let labels_all := labels1 ++ labels2
  let n_senses := labels_all.dedup
  let t1 : List ℝ := n_senses.map (fun i => (labels1.count i : ℝ))
  let t2 : List ℝ := n_senses.map (fun i => (labels2.count i : ℝ))
  compute_jsd (normalize t1) (normalize t2)

/-- Statement of the spec's Jensen-Shannon divergence formula:
`0.5·KL(p‖m) + 0.5·KL(q‖m)` with `m = 0.5(p+q)`, using the numerically safe
KL with the `0 · log 0 = 0` convention. -/
noncomputable def jensenShannonDivergence (p q : List ℝ) : ℝ :=
  let m := List.zipWith (fun a b => 0.5 * (a + b)) p q
  0.5 * relEntrSum p m + 0.5 * relEntrSum q m

/-- Statement of the spec's per-slice label distribution: occurrence counts of
the slice's labels taken over the union label set (zero-filled for absent
labels), normalized to sum to 1. -/
noncomputable def labelCountDist (ls : List ℤ) (union : List ℤ) : List ℝ :=
  normalize (union.map (fun i => (ls.count i : ℝ)))

/-! ### Occurrence filtering and deduplication (lines 143-169) -/

/-- Word character in the sense of the regex class `\w` (modelled on the
ASCII range, which covers the script's targets): a letter, a digit, or an
underscore. -/
def isWordChar (c : Char) : Bool :=
  c.isAlphanum || c == '_'

/-- Embedding of `str.replace(pat, "")`: delete every leftmost,
non-overlapping occurrence of `pat`.  (Both patterns used by the script,
`"_vb"` and `"_nn"`, are nonempty; for an empty pattern this model is the
identity.) -/
def replaceStrAux (pat : List Char) : ℕ → List Char → List Char
  | _, [] => []
  | 0, s => s
  | n + 1, c :: rest =>
    if pat.isPrefixOf (c :: rest) ∧ pat ≠ [] then
      replaceStrAux pat n (List.drop (pat.length - 1) rest)
    else
      c :: replaceStrAux pat n rest

/-- The deletion loop run with `s.length` units of fuel, which suffice:
every step consumes at least one character of the remaining string. -/
def replaceStr (pat s : List Char) : List Char :=
  replaceStrAux pat s.length s

/-- Embedding of line 143's suffix stripping:
`word.replace("_vb", "").replace("_nn", "")`. -/
def stripPos (w : List Char) : List Char :=
  replaceStr ['_', 'n', 'n'] (replaceStr ['_', 'v', 'b'] w)

/-- Whether the whole-word pattern `\b w \b` matches `text` at position `i`
(for a pattern `w` made of word characters): `w` occurs at `i`, the character
before (if any) is not a word character, and the character after (if any) is
not a word character. -/
def matchesAt (w text : List Char) (i : ℕ) : Bool :=
  decide (i + w.length ≤ text.length) &&
  ((text.drop i).take w.length == w) &&
  (decide (i = 0) || !isWordChar (text.getD (i - 1) ' ')) &&
  (decide (i + w.length = text.length) || !isWordChar (text.getD (i + w.length) ' '))

/-- Embedding of `re.search(r"\b%s\b" % w, text)` for a pattern `w` of word
characters: some position of `text` carries a whole-word match. -/
def containsWholeWord (w text : List Char) : Bool :=
  (List.range (text.length + 1)).any (matchesAt w text)

/-- Declarative reading of a whole-word match: `text` splits as
`pre ++ w ++ post` where `pre` does not end with a word character and `post`
does not start with one. -/
def WholeWordMatch (w text : List Char) : Prop :=
  ∃ pre post, text = pre ++ w ++ post ∧
    (∀ c, pre.getLast? = some c → isWordChar c = false) ∧
    (∀ c, post.head? = some c → isWordChar c = false)

/-- Embedding of the per-slice occurrence loop (lines 147-169) for one time
slice.  Each occurrence is an (embedding, sentence text) pair — the source
reads the two parallel arrays `emb[ts]` and `emb[ts + '_text']` at the same
index.  An occurrence is skipped when the regex does not match its text;
when `oneEmb` is set, an occurrence whose text was already recorded in
`text_seen` is also skipped, and kept texts are recorded. -/
def sliceLoop {α : Type} (oneEmb : Bool) (keep : List Char → Bool) :
    List (α × List Char) → List (List Char) → List (α × List Char)
  | [], _ => []
  | o :: rest, seen =>
    if keep o.2 then
      if oneEmb then
        if seen.contains o.2 then sliceLoop oneEmb keep rest seen
        else o :: sliceLoop oneEmb keep rest (o.2 :: seen)
      else o :: sliceLoop oneEmb keep rest seen
    else sliceLoop oneEmb keep rest seen

/-- The surviving occurrences of one time slice of one target word:
the slice loop run with the word-boundary regex built at line 143 from the
suffix-stripped target word, starting from an empty `text_seen`. -/
def processSlice {α : Type} (oneEmb : Bool) (tw : List Char)
    (occs : List (α × List Char)) : List (α × List Char) :=
  sliceLoop oneEmb (fun text => containsWholeWord (stripPos tw) text) occs []

/-- Statement of the spec's deduplication: keep only the first occurrence
carrying each distinct sentence text (relative to an already-seen set). -/
def keepFirstPerText {α : Type} :
    List (α × List Char) → List (List Char) → List (α × List Char)
  | [], _ => []
  | o :: rest, seen =>
    if seen.contains o.2 then keepFirstPerText rest seen
    else o :: keepFirstPerText rest (o.2 :: seen)

/-- Embedding of the argparse declaration of `--one_embedding_per_sentence`
(lines 101-102): `action="store_true"`, so the mode is off by default. -/
def one_embedding_per_sentence_default : Bool := false

/-! ### Pairwise and averaged cosine distances (lines 54-75) -/

/-- Dot product of two equal-length real vectors. -/
noncomputable def dotList (x y : List ℝ) : ℝ :=
  (List.zipWith (fun a b => a * b) x y).sum

/-- Embedding of `sklearn.metrics.pairwise.cosine_similarity` on two single
row vectors: the dot product divided by the product of the L2 norms. -/
noncomputable def cosine_similarity (x y : List ℝ) : ℝ :=
  dotList x y / (Real.sqrt (dotList x x) * Real.sqrt (dotList y y))

/-- Embedding of `np.mean` on a one-dimensional array. -/
noncomputable def npMean (l : List ℝ) : ℝ :=
  l.sum / l.length

/-- Embedding of `compute_mean_dist` (lines 54-67).  The function builds, for
each `t1` row, the mean cosine distance to all `t2` rows, prints the mean of
those means, and falls off the end of the function body: the first component
is the Python return value (`None`, as there is no return statement), the
second is the value printed at line 67. -/
noncomputable def compute_mean_dist (t1 t2 : List (List ℝ)) : Option ℝ × ℝ :=
  (none,
   npMean (t1.map (fun x => npMean (t2.map (fun y => 1 - cosine_similarity x y)))))

/-- Statement of the spec's `meanPairwiseCosineDistance`: the average of the
cosine distance `1 − cos(x, y)` over every pair `(x in X, y in Y)`. -/
noncomputable def meanPairwiseCosineDistance (X Y : List (List ℝ)) : ℝ :=
  ((X.map (fun x => (Y.map (fun y => 1 - cosine_similarity x y)).sum)).sum) /
    (X.length * Y.length)

/-! ### Pooling and label splitting (lines 182-198) -/

/-- Embedding of line 182: `np.concatenate([embeddings1, embeddings2])`,
slice-1 occurrences before slice-2 occurrences. -/
def embeddings_concat {α : Type} (e1 e2 : List α) : List α :=
  e1 ++ e2

/-- Embedding of lines 185-186 (and 191-192, 196-197): split a pooled label
sequence at the slice-1 occurrence count, `labels[:n1]` and `labels[n1:]`. -/
def splitClusters (labels : List ℤ) (n1 : ℕ) : List ℤ × List ℤ :=
  (labels.take n1, labels.drop n1)

/-! ### Per-word processing and the run loop (lines 134-198) -/

/-- Embedding of the body of the per-word loop, reduced to the parts the
error-path behaviour depends on.  Both slices are filtered (and optionally
deduplicated); when either slice ends up empty, the numpy/sklearn calls at
lines 180-184 raise a `ValueError` (`np.mean` of an empty axis-0 slice
produces NaN, which `cosine_similarity`'s input validation rejects, and
`np.concatenate`/`fit` reject the shape-`(0,)` array) — modelled as
`Except.error`.  Otherwise the pooled embeddings are clustered (the
clustering algorithm is passed as a function; sklearn returns one label per
sample), the labels split at the slice-1 count, and the divergence
computed. -/
noncomputable def processWord {α : Type} (cluster : List α → List ℤ)
    (oneEmb : Bool) (tw : List Char)
    (occs1 occs2 : List (α × List Char)) : Except String ℝ :=
  let kept1 := processSlice oneEmb tw occs1
  let kept2 := processSlice oneEmb tw occs2
  if kept1.isEmpty || kept2.isEmpty then
    Except.error "empty time slice after filtering"
  else
    let labels := cluster (embeddings_concat (kept1.map Prod.fst) (kept2.map Prod.fst))
    let cs := splitClusters labels kept1.length
    Except.ok (compute_divergence_from_cluster_labels cs.1 cs.2)

/-- Embedding of the `for i, word in enumerate(target_words)` loop
(line 134): words are processed strictly sequentially and no exception is
caught, so the first per-word error aborts the whole run. -/
noncomputable def runWords {α : Type} (cluster : List α → List ℤ)
    (oneEmb : Bool) :
    List (List Char × List (α × List Char) × List (α × List Char)) →
      Except String (List ℝ)
  | [] => Except.ok []
  | (tw, occs1, occs2) :: rest =>
    match processWord cluster oneEmb tw occs1 occs2 with
    | Except.error e => Except.error e
    | Except.ok r =>
      match runWords cluster oneEmb rest with
      | Except.error e => Except.error e
      | Except.ok rs => Except.ok (r :: rs)

/-! ### Affinity-propagation preference (lines 27-36, 132, 184) -/

/-- Negative squared Euclidean distance: sklearn's `affinity='euclidean'`
similarity between two sample rows. -/
def negSqEuclid (x y : List ℚ) : ℚ :=
  -(List.zipWith (fun a b => (a - b) * (a - b)) x y).sum

/-- The flattened similarity matrix of a sample set (every ordered pair,
diagonal included), as sklearn computes it before taking the median. -/
def similarityList (emb : List (List ℚ)) : List ℚ :=
  (emb.map (fun x => emb.map (fun y => negSqEuclid x y))).flatten

/-- Embedding of `np.median` on a one-dimensional array: sort ascending and
take the middle element, or the mean of the two middle elements for an even
length. -/
def npMedian (l : List ℚ) : ℚ :=
  let s := List.insertionSort (fun a b => a ≤ b) l
  if l.length % 2 = 1 then s.getD (l.length / 2) 0
  else (s.getD (l.length / 2 - 1) 0 + s.getD (l.length / 2) 0) / 2

/-- The preference value `sklearn.cluster.AffinityPropagation` actually uses,
following `cluster_word_embeddings_aff_prop` (lines 27-36): the explicit
`preference` argument when one is passed, otherwise sklearn's documented
default — the median of the input similarities (negative squared Euclidean
distances). -/
def affPropEffectivePreference (emb : List (List ℚ)) (preference : Option ℚ) : ℚ :=
  match preference with
  | some p => p
  | none => npMedian (similarityList emb)

/-- Embedding of line 132: `aff_prop_pref = -430`. -/
def aff_prop_pref : ℚ := -430

/-- The preference in effect for the main loop's clustering call at line 184,
`cluster_word_embeddings_aff_prop(embeddings_concat)`: the call passes no
`preference` argument. -/
def mainAffPropCallPreference (emb : List (List ℚ)) : ℚ :=
  affPropEffectivePreference emb none

/-! ### Results-table persistence (lines 122, 210-228) -/

/-- One row of `results_dict` (lines 122, 210-215): the word plus its
exemplar-based divergence, the two fixed-k divergences, the averaged
embedding distance, and the exemplar cluster count. -/
structure ResultRow (β : Type) where
  word : String
  aff_prop : β
  kmeans_5 : β
  kmeans_7 : β
  averaging : β
  aff_prop_clusters : ℕ

/-- Embedding of line 227, `results_df.sort_values(by=['aff_prop'],
ascending=False)`: sort the accumulated rows in descending order of the
exemplar-based divergence score. -/
def sortResults {β : Type} [LinearOrder β] (rows : List (ResultRow β)) :
    List (ResultRow β) :=
  List.insertionSort (fun a b => b.aff_prop ≤ a.aff_prop) rows

/-- Embedding of the persistence performed at the end of every loop iteration
(lines 226-228): after each processed word the full table is rebuilt from the
in-memory accumulator, sorted, and written whole to the CSV file (overwriting
the previous contents).  Returns the successive on-disk snapshots. -/
def persistLoop {β : Type} [LinearOrder β] :
    List (ResultRow β) → List (ResultRow β) → List (List (ResultRow β))
  | [], _ => []
  | r :: rest, acc => sortResults (acc ++ [r]) :: persistLoop rest (acc ++ [r])

/-- The sequence of on-disk results tables over a run: one snapshot per
processed word, where the word processed at each iteration contributes
exactly one new row. -/
def resultSnapshots {ω β : Type} [LinearOrder β] (words : List ω)
    (computeRow : ω → ResultRow β) : List (List (ResultRow β)) :=
  persistLoop (words.map computeRow) []

/-! ### Lemmas about normalization and relative entropy -/

theorem list_sum_div (l : List ℝ) (c : ℝ) :
    (l.map (fun x => x / c)).sum = l.sum / c := by
  induction l with
  | nil => simp
  | cons x xs ih => simp [ih, add_div]

theorem normalize_sum (p : List ℝ) (h : p.sum ≠ 0) : (normalize p).sum = 1 := by
  simp [normalize, list_sum_div, div_self h]

theorem normalize_eq_self (p : List ℝ) (h : p.sum = 1) : normalize p = p := by
  simp [normalize, h]

theorem normalize_length (p : List ℝ) : (normalize p).length = p.length := by
  simp [normalize]

theorem relEntrSum_nil (q : List ℝ) : relEntrSum [] q = 0 := by
  simp [relEntrSum]

theorem relEntrSum_cons (x y : ℝ) (p q : List ℝ) :
    relEntrSum (x :: p) (y :: q) = relEntr x y + relEntrSum p q := by
  simp [relEntrSum]

theorem zipWith_avg_sum :
    ∀ (p q : List ℝ), p.length = q.length →
      (List.zipWith (fun a b => (a + b) / 2) p q).sum = (p.sum + q.sum) / 2
  | [], [], _ => by simp
  | [], _ :: _, h => by simp at h
  | _ :: _, [], h => by simp at h
  | x :: p, y :: q, h => by
    have ih := zipWith_avg_sum p q (by simpa using h)
    simp only [List.zipWith_cons_cons, List.sum_cons, ih]
    ring

theorem zipWith_avg_self (p : List ℝ) :
    List.zipWith (fun a b => (a + b) / 2) p p = p := by
  induction p with
  | nil => simp
  | cons x xs ih => simp [ih]

theorem zipWith_half_eq (l l' : List ℝ) :
    List.zipWith (fun a b => 0.5 * (a + b)) l l' =
      List.zipWith (fun a b => (a + b) / 2) l l' := by
  induction l generalizing l' with
  | nil => simp
  | cons x xs ih =>
    cases l' with
    | nil => simp
    | cons y ys => simp [ih]; ring

theorem relEntr_self (x : ℝ) : relEntr x x = 0 := by
  unfold relEntr
  by_cases h : x = 0
  · simp [h]
  · simp [h, div_self h]

theorem relEntrSum_self (p : List ℝ) : relEntrSum p p = 0 := by
  induction p with
  | nil => simp [relEntrSum]
  | cons x xs ih => simp [relEntrSum_cons, relEntr_self, ih]

theorem compute_jsd_self (p : List ℝ) : compute_jsd p p = 0 := by
  simp [compute_jsd, scipyEntropy, zipWith_avg_self, relEntrSum_self]

theorem compute_jsd_comm (p q : List ℝ) : compute_jsd p q = compute_jsd q p := by
  simp only [compute_jsd]
  rw [List.zipWith_comm_of_comm (fun a b : ℝ => (a + b) / 2)
    (fun x y => by ring) (normalize p) (normalize q)]
  ring

theorem compute_jsd_prob (p q : List ℝ) (hl : p.length = q.length)
    (hp : p.sum = 1) (hq : q.sum = 1) :
    compute_jsd p q =
      (relEntrSum p (List.zipWith (fun a b => (a + b) / 2) p q) +
        relEntrSum q (List.zipWith (fun a b => (a + b) / 2) p q)) / 2 := by
  have hm : (List.zipWith (fun a b => (a + b) / 2) p q).sum = 1 := by
    rw [zipWith_avg_sum p q hl, hp, hq]; norm_num
  simp only [compute_jsd, scipyEntropy]
  rw [normalize_eq_self p hp, normalize_eq_self q hq,
    normalize_eq_self _ hm, normalize_eq_self p hp, normalize_eq_self q hq]

theorem relEntr_ge_sub (x y : ℝ) (hx : 0 ≤ x) (hy : 0 ≤ y)
    (hxy : x ≠ 0 → 0 < y) : x - y ≤ relEntr x y := by
  unfold relEntr
  by_cases h : x = 0
  · simp [h]; linarith
  · have hx' : 0 < x := lt_of_le_of_ne hx (Ne.symm h)
    have hy' : 0 < y := hxy h
    have hd : 0 < y / x := div_pos hy' hx'
    have hlog : Real.log (y / x) ≤ y / x - 1 := Real.log_le_sub_one_of_pos hd
    have hneg : Real.log (x / y) = -Real.log (y / x) := by
      rw [← Real.log_inv, inv_div]
    rw [if_neg h, hneg]
    have hmul : x * Real.log (y / x) ≤ x * (y / x - 1) :=
      mul_le_mul_of_nonneg_left hlog (le_of_lt hx')
    have hxyx : x * (y / x - 1) = y - x := by
      field_simp
    nlinarith [hmul]

theorem relEntr_le_mul_log_two (x y : ℝ) (hx : 0 ≤ x) (hxy : x ≤ 2 * y) :
    relEntr x y ≤ x * Real.log 2 := by
  unfold relEntr
  by_cases h : x = 0
  · simp [h]
  · have hx' : 0 < x := lt_of_le_of_ne hx (Ne.symm h)
    have hy' : 0 < y := by linarith
    have hdiv : x / y ≤ 2 := (div_le_iff₀ hy').mpr (by linarith)
    have hpos : 0 < x / y := div_pos hx' hy'
    have hlog : Real.log (x / y) ≤ Real.log 2 := Real.log_le_log hpos hdiv
    rw [if_neg h]
    exact mul_le_mul_of_nonneg_left hlog (le_of_lt hx')

theorem relEntrSum_avg_ge :
    ∀ (p q : List ℝ), p.length = q.length →
      (∀ x ∈ p, 0 ≤ x) → (∀ x ∈ q, 0 ≤ x) →
      p.sum - (p.sum + q.sum) / 2 ≤
        relEntrSum p (List.zipWith (fun a b => (a + b) / 2) p q)
  | [], [], _, _, _ => by simp [relEntrSum]
  | [], _ :: _, h, _, _ => by simp at h
  | _ :: _, [], h, _, _ => by simp at h
  | x :: p, y :: q, h, hp, hq => by
    have hx : 0 ≤ x := hp x (List.mem_cons_self x p)
    have hy : 0 ≤ y := hq y (List.mem_cons_self y q)
    have ih := relEntrSum_avg_ge p q (by simpa using h)
      (fun z hz => hp z (List.mem_cons_of_mem x hz))
      (fun z hz => hq z (List.mem_cons_of_mem y hz))
    have hpt : x - (x + y) / 2 ≤ relEntr x ((x + y) / 2) :=
      relEntr_ge_sub x ((x + y) / 2) hx (by linarith)
        (fun hne => by
          have : 0 < x := lt_of_le_of_ne hx (Ne.symm hne)
          linarith)
    simp only [List.zipWith_cons_cons, relEntrSum_cons, List.sum_cons]
    linarith

theorem relEntrSum_avg_le :
    ∀ (p q : List ℝ), p.length = q.length →
      (∀ x ∈ p, 0 ≤ x) → (∀ x ∈ q, 0 ≤ x) →
      relEntrSum p (List.zipWith (fun a b => (a + b) / 2) p q) ≤
        p.sum * Real.log 2
  | [], [], _, _, _ => by simp [relEntrSum]
  | [], _ :: _, h, _, _ => by simp at h
  | _ :: _, [], h, _, _ => by simp at h
  | x :: p, y :: q, h, hp, hq => by
    have hx : 0 ≤ x := hp x (List.mem_cons_self x p)
    have hy : 0 ≤ y := hq y (List.mem_cons_self y q)
    have ih := relEntrSum_avg_le p q (by simpa using h)
      (fun z hz => hp z (List.mem_cons_of_mem x hz))
      (fun z hz => hq z (List.mem_cons_of_mem y hz))
    have hpt : relEntr x ((x + y) / 2) ≤ x * Real.log 2 :=
      relEntr_le_mul_log_two x ((x + y) / 2) hx (by linarith)
    simp only [List.zipWith_cons_cons, relEntrSum_cons, List.sum_cons]
    have : (x + p.sum) * Real.log 2 = x * Real.log 2 + p.sum * Real.log 2 := by
      ring
    linarith [this]

theorem jsd_eq_of_prob (p q : List ℝ) (hl : p.length = q.length)
    (hp : p.sum = 1) (hq : q.sum = 1) :
    compute_jsd p q = jensenShannonDivergence p q := by
  rw [compute_jsd_prob p q hl hp hq]
  simp only [jensenShannonDivergence]
  rw [zipWith_half_eq]
  ring

/-! ### Counting lemmas for the divergence over the label union -/

theorem sum_map_add_nat {γ : Type} (l : List γ) (f g : γ → ℕ) :
    (l.map (fun x => f x + g x)).sum = (l.map f).sum + (l.map g).sum := by
  induction l with
  | nil => simp
  | cons a l ih =>
    simp only [List.map_cons, List.sum_cons, ih]
    omega

theorem sum_indicator_zero (d : List ℤ) (a : ℤ) (ha : a ∉ d) :
    (d.map (fun i => if a = i then 1 else 0)).sum = 0 := by
  induction d with
  | nil => simp
  | cons y d ih =>
    simp only [List.mem_cons, not_or] at ha
    obtain ⟨h1, h2⟩ := ha
    simp [h1, ih h2]

theorem sum_indicator_one (d : List ℤ) (a : ℤ) (hd : d.Nodup) (ha : a ∈ d) :
    (d.map (fun i => if a = i then 1 else 0)).sum = 1 := by
  induction d with
  | nil => simp at ha
  | cons y d ih =>
    have hyd : y ∉ d := (List.nodup_cons.mp hd).1
    have hnd : d.Nodup := (List.nodup_cons.mp hd).2
    rcases List.mem_cons.mp ha with h | h
    · subst h
      simp [sum_indicator_zero d a hyd]
    · have hya : ¬a = y := fun he => hyd (he ▸ h)
      simp [hya, ih hnd h]

theorem sum_counts (d : List ℤ) (hd : d.Nodup) :
    ∀ (l : List ℤ), (∀ x ∈ l, x ∈ d) →
      (d.map (fun i => l.count i)).sum = l.length := by
  intro l
  induction l with
  | nil => intro _; simp
  | cons a l ih =>
    intro hsub
    have hstep : (d.map (fun i => (a :: l).count i)).sum =
        (d.map (fun i => l.count i + if a = i then 1 else 0)).sum := by
      congr 1
      apply List.map_congr_left
      intro i _
      rw [List.count_cons]
      simp [beq_iff_eq]
    rw [hstep, sum_map_add_nat,
      sum_indicator_one d a hd (hsub a (List.mem_cons_self a l)),
      ih (fun x hx => hsub x (List.mem_cons_of_mem a hx))]
    simp

theorem sum_map_cast (d : List ℤ) (f : ℤ → ℕ) :
    (d.map (fun i => (f i : ℝ))).sum = ((d.map f).sum : ℝ) := by
  induction d with
  | nil => simp
  | cons a d ih => simp [ih]

theorem labelCountDist_sum (ls : List ℤ) (u : List ℤ) (hu : u.Nodup)
    (hsub : ∀ x ∈ ls, x ∈ u) (hne : ls ≠ []) :
    (labelCountDist ls u).sum = 1 := by
  apply normalize_sum
  rw [sum_map_cast u (fun i => ls.count i), sum_counts u hu ls hsub]
  have : ls.length ≠ 0 := fun h => hne (List.length_eq_zero.mp h)
  exact_mod_cast this

/-- C1: for nonempty label lists, `compute_divergence_from_cluster_labels`
equals the Jensen-Shannon divergence `0.5·KL(p‖m) + 0.5·KL(q‖m)` with
`m = 0.5(p+q)`, where `p` and `q` are the per-label occurrence counts of the
two lists over the union of labels seen in either list, zero-filled and
normalized to sum to 1. -/
theorem C1_cluster_divergence_is_jsd (l1 l2 : List ℤ)
    (h1 : l1 ≠ []) (h2 : l2 ≠ []) :
    compute_divergence_from_cluster_labels l1 l2 =
      jensenShannonDivergence (labelCountDist l1 ((l1 ++ l2).dedup))
        (labelCountDist l2 ((l1 ++ l2).dedup)) := by
  have hnd : ((l1 ++ l2).dedup).Nodup := List.nodup_dedup _
  have hsub1 : ∀ x ∈ l1, x ∈ (l1 ++ l2).dedup := fun x hx =>
    List.mem_dedup.mpr (List.mem_append.mpr (Or.inl hx))
  have hsub2 : ∀ x ∈ l2, x ∈ (l1 ++ l2).dedup := fun x hx =>
    List.mem_dedup.mpr (List.mem_append.mpr (Or.inr hx))
  have hp : (labelCountDist l1 ((l1 ++ l2).dedup)).sum = 1 :=
    labelCountDist_sum l1 _ hnd hsub1 h1
  have hq : (labelCountDist l2 ((l1 ++ l2).dedup)).sum = 1 :=
    labelCountDist_sum l2 _ hnd hsub2 h2
  have hl : (labelCountDist l1 ((l1 ++ l2).dedup)).length =
      (labelCountDist l2 ((l1 ++ l2).dedup)).length := by
    simp [labelCountDist, normalize_length]
  calc compute_divergence_from_cluster_labels l1 l2
      = compute_jsd (labelCountDist l1 ((l1 ++ l2).dedup))
          (labelCountDist l2 ((l1 ++ l2).dedup)) := rfl
    _ = jensenShannonDivergence (labelCountDist l1 ((l1 ++ l2).dedup))
          (labelCountDist l2 ((l1 ++ l2).dedup)) :=
        jsd_eq_of_prob _ _ hl hp hq

/-- Witness for C1 at the concrete label lists `[0]` and `[1]`. -/
theorem C1_witness :
    (([0] : List ℤ) ≠ [] ∧ ([1] : List ℤ) ≠ []) ∧
    compute_divergence_from_cluster_labels [0] [1] =
      jensenShannonDivergence (labelCountDist [0] (([0] ++ [1] : List ℤ).dedup))
        (labelCountDist [1] (([0] ++ [1] : List ℤ).dedup)) :=
  ⟨⟨by decide, by decide⟩,
    C1_cluster_divergence_is_jsd [0] [1] (by decide) (by decide)⟩

/-- C2: for probability vectors `p`, `q` over the same label set
(equal length, nonnegative entries, each summing to 1), `compute_jsd` is
symmetric, vanishes on identical arguments, and its value lies in
`[0, ln 2]`. -/
theorem C2_jsd_symmetric_bounded (p q : List ℝ)
    (hl : p.length = q.length)
    (hp0 : ∀ x ∈ p, 0 ≤ x) (hq0 : ∀ x ∈ q, 0 ≤ x)
    (hp1 : p.sum = 1) (hq1 : q.sum = 1) :
    compute_jsd p q = compute_jsd q p ∧ compute_jsd p p = 0 ∧
      0 ≤ compute_jsd p q ∧ compute_jsd p q ≤ Real.log 2 := by
  have hmcomm : List.zipWith (fun a b : ℝ => (a + b) / 2) q p =
      List.zipWith (fun a b : ℝ => (a + b) / 2) p q :=
    List.zipWith_comm_of_comm _ (fun x y => by ring) q p
  have hge_p := relEntrSum_avg_ge p q hl hp0 hq0
  have hge_q := relEntrSum_avg_ge q p hl.symm hq0 hp0
  have hle_p := relEntrSum_avg_le p q hl hp0 hq0
  have hle_q := relEntrSum_avg_le q p hl.symm hq0 hp0
  rw [hmcomm] at hge_q hle_q
  simp only [hp1, hq1] at hge_p hge_q hle_p hle_q
  have hjsd := compute_jsd_prob p q hl hp1 hq1
  refine ⟨compute_jsd_comm p q, compute_jsd_self p, ?_, ?_⟩
  · rw [hjsd]
    norm_num at hge_p hge_q ⊢
    linarith
  · rw [hjsd]
    norm_num at hle_p hle_q ⊢
    linarith

/-- Witness for C2 at the concrete distributions `[1, 0]` and `[0, 1]`. -/
theorem C2_witness :
    (([1, 0] : List ℝ).length = ([0, 1] : List ℝ).length ∧
      ([1, 0] : List ℝ).sum = 1 ∧ ([0, 1] : List ℝ).sum = 1) ∧
    (compute_jsd [1, 0] [0, 1] = compute_jsd [0, 1] [1, 0] ∧
      compute_jsd [1, 0] [1, 0] = 0 ∧
      0 ≤ compute_jsd [1, 0] [0, 1] ∧
      compute_jsd [1, 0] [0, 1] ≤ Real.log 2) :=
  ⟨⟨by norm_num, by norm_num, by norm_num⟩,
    C2_jsd_symmetric_bounded [1, 0] [0, 1] (by norm_num)
      (by intro x hx; rcases List.mem_cons.mp hx with h | h
          · simp [h]
          · simp at h; simp [h])
      (by intro x hx; rcases List.mem_cons.mp hx with h | h
          · simp [h]
          · simp at h; simp [h])
      (by norm_num) (by norm_num)⟩

/-- C10: `compute_jsd` is not side-effect-free on numpy array inputs — after
the call the caller's arrays hold the normalized distributions (each entry
divided by the original sum, the result summing to 1). -/
theorem C10_compute_jsd_mutates_inputs (p q : List ℝ)
    (hp : p.sum ≠ 0) (hq : q.sum ≠ 0) :
    (compute_jsd_state p q).2.1 = p.map (fun x => x / p.sum) ∧
    (compute_jsd_state p q).2.1.sum = 1 ∧
    (compute_jsd_state p q).2.2 = q.map (fun x => x / q.sum) ∧
    (compute_jsd_state p q).2.2.sum = 1 :=
  ⟨rfl, normalize_sum p hp, rfl, normalize_sum q hq⟩

/-- Witness for C10 at `p = [2, 2]`, `q = [1, 1]`: additionally, the
caller-observed array after the call differs from the original `[2, 2]`. -/
theorem C10_witness :
    (([2, 2] : List ℝ).sum ≠ 0 ∧ ([1, 1] : List ℝ).sum ≠ 0) ∧
    ((compute_jsd_state [2, 2] [1, 1]).2.1 =
        ([2, 2] : List ℝ).map (fun x => x / ([2, 2] : List ℝ).sum) ∧
      (compute_jsd_state [2, 2] [1, 1]).2.1.sum = 1 ∧
      (compute_jsd_state [2, 2] [1, 1]).2.2 =
        ([1, 1] : List ℝ).map (fun x => x / ([1, 1] : List ℝ).sum) ∧
      (compute_jsd_state [2, 2] [1, 1]).2.2.sum = 1) ∧
    (compute_jsd_state [2, 2] [1, 1]).2.1 ≠ [2, 2] := by
  refine ⟨⟨by norm_num, by norm_num⟩,
    C10_compute_jsd_mutates_inputs [2, 2] [1, 1] (by norm_num) (by norm_num),
    ?_⟩
  simp only [compute_jsd_state, normalize, List.sum_cons, List.sum_nil,
    List.map_cons, List.map_nil]
  norm_num

/-- C4: for any clustering output on the pooled set (one label per pooled
sample, as sklearn guarantees), splitting the label sequence at the slice-1
occurrence count yields parts whose lengths are the slice-1 and slice-2
occurrence counts. -/
theorem C4_split_invariant {α : Type} (labels : List ℤ) (e1 e2 : List α)
    (h : labels.length = (embeddings_concat e1 e2).length) :
    (splitClusters labels e1.length).1.length = e1.length ∧
    (splitClusters labels e1.length).2.length = e2.length := by
  simp only [embeddings_concat, List.length_append] at h
  constructor
  · simp only [splitClusters, List.length_take]
    omega
  · simp only [splitClusters, List.length_drop]
    omega

/-- Witness for C4 at a pooled set of one slice-1 and two slice-2 samples. -/
theorem C4_witness :
    (([0, 1, 0] : List ℤ).length =
      (embeddings_concat [true] [false, false]).length) ∧
    ((splitClusters [0, 1, 0] ([true] : List Bool).length).1.length =
        ([true] : List Bool).length ∧
      (splitClusters [0, 1, 0] ([true] : List Bool).length).2.length =
        ([false, false] : List Bool).length) :=
  ⟨by decide, C4_split_invariant [0, 1, 0] [true] [false, false] (by decide)⟩

/-- C7 counterexample: `compute_mean_dist` does not return the mean pairwise
cosine distance — it returns `None` (the function body has no return
statement), here at the concrete input `X = Y = [[1]]`. -/
theorem C7_counterexample :
    (compute_mean_dist [[1]] [[1]]).1 ≠
      some (meanPairwiseCosineDistance [[1]] [[1]]) := by
  simp [compute_mean_dist]

/-- C7 amended: for nonempty inputs, `compute_mean_dist` returns `None` and
the value it prints equals the average of the cosine distance
`1 − cos(x, y)` over every pair `(x in X, y in Y)`. -/
theorem C7_prints_mean_pairwise (t1 t2 : List (List ℝ))
    (_h1 : t1 ≠ []) (_h2 : t2 ≠ []) :
    (compute_mean_dist t1 t2).1 = none ∧
    (compute_mean_dist t1 t2).2 = meanPairwiseCosineDistance t1 t2 := by
  refine ⟨rfl, ?_⟩
  simp only [compute_mean_dist, npMean, meanPairwiseCosineDistance,
    List.length_map]
  have e : t1.map
        (fun x => (t2.map (fun y => 1 - cosine_similarity x y)).sum /
          (t2.length : ℝ)) =
      (t1.map (fun x => (t2.map (fun y => 1 - cosine_similarity x y)).sum)).map
        (fun s => s / (t2.length : ℝ)) := by
    rw [List.map_map]
    apply List.map_congr_left
    intro x _
    rfl
  rw [e, list_sum_div, div_div]
  ring_nf

/-- Witness for C7's amended statement at `X = Y = [[1]]`. -/
theorem C7_witness :
    (([[1]] : List (List ℝ)) ≠ [] ∧ ([[1]] : List (List ℝ)) ≠ []) ∧
    ((compute_mean_dist [[1]] [[1]]).1 = none ∧
      (compute_mean_dist [[1]] [[1]]).2 = meanPairwiseCosineDistance [[1]] [[1]]) :=
  ⟨⟨by simp, by simp⟩, C7_prints_mean_pairwise [[1]] [[1]] (by simp) (by simp)⟩

/-- C3 counterexample: a two-word run in which the first word's slice 1 loses
all occurrences to the regex filter ("airplane noise" contains no whole-word
"plane").  The run aborts with the first word's error; the second word is
never processed and no per-word failure record exists — refuting the claim
that such an error is surfaced per word and processing continues. -/
theorem C3_counterexample :
    runWords (fun xs : List Unit => xs.map (fun _ => (0 : ℤ))) false
      [("plane".toList, [(((), "airplane noise".toList))],
          [(((), "a plane flew".toList))]),
        ("plane".toList, [(((), "the plane landed".toList))],
          [(((), "a plane flew".toList))])] =
      Except.error "empty time slice after filtering" := by
  rfl

/-- C3 amended: an error local to one word aborts the whole run.  When
filtering leaves either of a word's time slices empty, the per-word
computation raises (modelled as `Except.error`), and the sequential loop —
which catches nothing — returns that error: subsequent words are not
processed and no failure reason is recorded. -/
theorem C3_empty_slice_aborts_run {α : Type} (cluster : List α → List ℤ)
    (oneEmb : Bool) (tw : List Char)
    (occs1 occs2 : List (α × List Char))
    (rest : List (List Char × List (α × List Char) × List (α × List Char)))
    (h : processSlice oneEmb tw occs1 = [] ∨ processSlice oneEmb tw occs2 = []) :
    processWord cluster oneEmb tw occs1 occs2 =
      Except.error "empty time slice after filtering" ∧
    runWords cluster oneEmb ((tw, occs1, occs2) :: rest) =
      Except.error "empty time slice after filtering" := by
  have hw : processWord cluster oneEmb tw occs1 occs2 =
      Except.error "empty time slice after filtering" := by
    rcases h with h | h
    · simp [processWord, h]
    · simp [processWord, h]
  exact ⟨hw, by simp [runWords, hw]⟩

/-- Witness for C3's amended statement, exercising both cases: a word whose
slice 1 is emptied by the filter, and a word whose slice 2 is emptied. -/
theorem C3_witness :
    (processSlice false "plane".toList
        [(((), "airplane noise".toList))] = ([] : List (Unit × List Char))) ∧
    (processWord (fun xs : List Unit => xs.map (fun _ => (0 : ℤ))) false
        "plane".toList [(((), "airplane noise".toList))]
        [(((), "a plane flew".toList))] =
      Except.error "empty time slice after filtering" ∧
    runWords (fun xs : List Unit => xs.map (fun _ => (0 : ℤ))) false
        [("plane".toList, [(((), "airplane noise".toList))],
          [(((), "a plane flew".toList))])] =
      Except.error "empty time slice after filtering") ∧
    (processWord (fun xs : List Unit => xs.map (fun _ => (0 : ℤ))) false
        "plane".toList [(((), "a plane flew".toList))]
        [(((), "airplane noise".toList))] =
      Except.error "empty time slice after filtering" ∧
    runWords (fun xs : List Unit => xs.map (fun _ => (0 : ℤ))) false
        [("plane".toList, [(((), "a plane flew".toList))],
          [(((), "airplane noise".toList))])] =
      Except.error "empty time slice after filtering") :=
  ⟨rfl,
    C3_empty_slice_aborts_run _ false "plane".toList _ _ [] (Or.inl rfl),
    C3_empty_slice_aborts_run _ false "plane".toList _ _ [] (Or.inr rfl)⟩

/-- C6: the main loop's affinity-propagation call passes no preference, so
the preference actually used is sklearn's data-dependent median similarity —
it differs between words with different pooled embeddings (here `[[0],[0]]`
versus `[[0],[2]]`) and never equals the fixed `aff_prop_pref = -430` that
line 132 defines but never uses. -/
theorem C6_preference_not_fixed :
    mainAffPropCallPreference [[0], [0]] ≠ mainAffPropCallPreference [[0], [2]] ∧
    mainAffPropCallPreference [[0], [0]] ≠ aff_prop_pref := by
  have e1 : similarityList [[0], [0]] = [0, 0, 0, 0] := by
    norm_num [similarityList, negSqEuclid]
  have e2 : similarityList [[0], [2]] = [0, -4, -4, 0] := by
    norm_num [similarityList, negSqEuclid]
  have m1 : mainAffPropCallPreference [[0], [0]] = 0 := by
    simp only [mainAffPropCallPreference, affPropEffectivePreference,
      npMedian, e1]
    norm_num [List.insertionSort, List.orderedInsert, List.getD]
  have m2 : mainAffPropCallPreference [[0], [2]] = -2 := by
    simp only [mainAffPropCallPreference, affPropEffectivePreference,
      npMedian, e2]
    norm_num [List.insertionSort, List.orderedInsert, List.getD]
  rw [m1, m2, aff_prop_pref]
  constructor <;> norm_num

/-! ### Deduplication lemmas -/

theorem sliceLoop_true_eq_keepFirst {α : Type} (keep : List Char → Bool) :
    ∀ (occs : List (α × List Char)) (seen : List (List Char)),
      sliceLoop true keep occs seen =
        keepFirstPerText (occs.filter (fun o => keep o.2)) seen := by
  intro occs
  induction occs with
  | nil => intro seen; simp [sliceLoop, keepFirstPerText]
  | cons o rest ih =>
    intro seen
    by_cases hk : keep o.2
    · by_cases hs : seen.contains o.2
      · simp [sliceLoop, hk, hs, List.filter_cons, keepFirstPerText, ih]
      · simp [sliceLoop, hk, hs, List.filter_cons, keepFirstPerText, ih]
    · simp [sliceLoop, hk, List.filter_cons, ih]

theorem keepFirstPerText_nodup {α : Type} :
    ∀ (l : List (α × List Char)) (seen : List (List Char)),
      ((keepFirstPerText l seen).map Prod.snd).Nodup ∧
      ∀ t ∈ (keepFirstPerText l seen).map Prod.snd, t ∉ seen := by
  intro l
  induction l with
  | nil => intro seen; simp [keepFirstPerText]
  | cons o rest ih =>
    intro seen
    by_cases hs : o.2 ∈ seen
    · have hc : seen.contains o.2 = true := by simpa using hs
      simp only [keepFirstPerText]
      rw [if_pos hc]
      exact ih seen
    · have hc : ¬seen.contains o.2 = true := by simpa using hs
      simp only [keepFirstPerText]
      rw [if_neg hc]
      obtain ⟨hnd, hnotin⟩ := ih (o.2 :: seen)
      constructor
      · rw [List.map_cons, List.nodup_cons]
        exact ⟨fun hin => (hnotin o.2 hin) (List.mem_cons_self _ _), hnd⟩
      · intro t ht
        rw [List.map_cons, List.mem_cons] at ht
        rcases ht with h | h
        · exact h ▸ hs
        · have h2 := hnotin t h
          simp only [List.mem_cons, not_or] at h2
          exact h2.2

/-- C8: with one-embedding-per-sentence mode enabled, a time slice keeps only
the first surviving (regex-matching) occurrence of each distinct sentence
text — the result equals first-per-text deduplication of the filtered
occurrence list, its texts are pairwise distinct, and the mode is off by
default.  Each kept element is the (embedding, text) pair feeding both the
pooled embedding list and the persisted sentence list. -/
theorem C8_one_embedding_per_sentence {α : Type} (tw : List Char)
    (occs : List (α × List Char)) :
    processSlice true tw occs =
      keepFirstPerText
        (occs.filter (fun o => containsWholeWord (stripPos tw) o.2)) [] ∧
    ((processSlice true tw occs).map Prod.snd).Nodup ∧
    one_embedding_per_sentence_default = false := by
  refine ⟨sliceLoop_true_eq_keepFirst _ occs [], ?_, rfl⟩
  rw [processSlice, sliceLoop_true_eq_keepFirst]
  exact (keepFirstPerText_nodup _ []).1

/-! ### Persistence lemmas -/

theorem persistLoop_getD {β : Type} [LinearOrder β] :
    ∀ (rows acc : List (ResultRow β)) (k : ℕ), k < rows.length →
      (persistLoop rows acc).getD k [] =
        sortResults (acc ++ rows.take (k + 1)) := by
  intro rows
  induction rows with
  | nil => intro acc k hk; simp at hk
  | cons r rest ih =>
    intro acc k hk
    cases k with
    | zero => simp [persistLoop]
    | succ k =>
      have hk' : k < rest.length := by simpa using hk
      simp only [persistLoop, List.getD_cons_succ]
      rw [ih (acc ++ [r]) k hk']
      congr 1
      simp [List.take_succ_cons]

/-- C9: after each processed word, the persisted results table is rebuilt
whole from the accumulator: the snapshot after the `k`-th word is exactly the
sorted version of the rows of the first `k+1` words — a permutation of one
row per word processed so far, sorted in descending order of the
exemplar-based (`aff_prop`) divergence score, of length `k+1`. -/
theorem C9_results_table {ω β : Type} [LinearOrder β] (words : List ω)
    (computeRow : ω → ResultRow β) (k : ℕ) (hk : k < words.length) :
    (resultSnapshots words computeRow).getD k [] =
      sortResults ((words.take (k + 1)).map computeRow) ∧
    ((resultSnapshots words computeRow).getD k []).Perm
      ((words.take (k + 1)).map computeRow) ∧
    List.Sorted (fun a b => b.aff_prop ≤ a.aff_prop)
      ((resultSnapshots words computeRow).getD k []) ∧
    ((resultSnapshots words computeRow).getD k []).length = k + 1 := by
  have hlen : k < (words.map computeRow).length := by simpa using hk
  have h1 : (resultSnapshots words computeRow).getD k [] =
      sortResults ((words.take (k + 1)).map computeRow) := by
    rw [resultSnapshots, persistLoop_getD (words.map computeRow) [] k hlen]
    simp [List.map_take]
  haveI htot : IsTotal (ResultRow β) (fun a b => b.aff_prop ≤ a.aff_prop) :=
    ⟨fun a b => le_total b.aff_prop a.aff_prop⟩
  haveI htr : IsTrans (ResultRow β) (fun a b => b.aff_prop ≤ a.aff_prop) :=
    ⟨fun _ _ _ hab hbc => le_trans hbc hab⟩
  refine ⟨h1, ?_, ?_, ?_⟩
  · rw [h1]
    exact List.perm_insertionSort _ _
  · rw [h1]
    exact List.sorted_insertionSort _ _
  · rw [h1]
    simp only [sortResults, List.length_insertionSort, List.length_map,
      List.length_take]
    omega

/-- Witness for C9 on a concrete two-word run with rational scores,
inspected after the second word. -/
theorem C9_witness :
    (1 < ([10, 20] : List ℕ).length) ∧
    ((resultSnapshots [10, 20]
        (fun n => ResultRow.mk "w" (n : ℚ) 0 0 0 0)).getD 1 [] =
      sortResults ((([10, 20] : List ℕ).take 2).map
        (fun n => ResultRow.mk "w" (n : ℚ) 0 0 0 0)) ∧
    ((resultSnapshots [10, 20]
        (fun n => ResultRow.mk "w" (n : ℚ) 0 0 0 0)).getD 1 []).Perm
      ((([10, 20] : List ℕ).take 2).map
        (fun n => ResultRow.mk "w" (n : ℚ) 0 0 0 0)) ∧
    List.Sorted (fun a b => b.aff_prop ≤ a.aff_prop)
      ((resultSnapshots [10, 20]
        (fun n => ResultRow.mk "w" (n : ℚ) 0 0 0 0)).getD 1 []) ∧
    ((resultSnapshots [10, 20]
        (fun n => ResultRow.mk "w" (n : ℚ) 0 0 0 0)).getD 1 []).length = 1 + 1) :=
  ⟨by decide,
    C9_results_table [10, 20] (fun n => ResultRow.mk "w" (n : ℚ) 0 0 0 0) 1
      (by decide)⟩

/-! ### Whole-word matching lemmas -/

theorem getLast?_take (l : List Char) (i : ℕ) (h1 : 0 < i)
    (h2 : i ≤ l.length) : (l.take i).getLast? = l[i - 1]? := by
  rw [List.getLast?_eq_getElem?, List.length_take, min_eq_left h2,
    List.getElem?_take, if_pos (by omega : i - 1 < i)]

theorem matchesAt_iff (w text : List Char) (i : ℕ) :
    matchesAt w text i = true ↔
      i + w.length ≤ text.length ∧
      (text.drop i).take w.length = w ∧
      (i = 0 ∨ isWordChar (text.getD (i - 1) ' ') = false) ∧
      (i + w.length = text.length ∨
        isWordChar (text.getD (i + w.length) ' ') = false) := by
  simp [matchesAt, Bool.and_eq_true, Bool.or_eq_true, decide_eq_true_eq,
    Bool.not_eq_true', and_assoc]

theorem containsWholeWord_iff (w text : List Char) :
    containsWholeWord w text = true ↔ WholeWordMatch w text := by
  rw [containsWholeWord, List.any_eq_true]
  constructor
  · rintro ⟨i, hi, hm⟩
    rw [List.mem_range] at hi
    obtain ⟨h1, h2, h3, h4⟩ := (matchesAt_iff w text i).mp hm
    refine ⟨text.take i, text.drop (i + w.length), ?_, ?_, ?_⟩
    · rw [List.append_assoc]
      conv_lhs => rw [← List.take_append_drop i text]
      congr 1
      conv_lhs => rw [← List.take_append_drop w.length (text.drop i)]
      rw [h2, List.drop_drop]
    · intro c hc
      rcases h3 with h0 | hw
      · rw [h0] at hc
        simp at hc
      · by_cases h0 : i = 0
        · rw [h0] at hc
          simp at hc
        · have hi' : 0 < i := Nat.pos_of_ne_zero h0
          have hil : i ≤ text.length := by omega
          rw [getLast?_take text i hi' hil] at hc
          rw [List.getD_eq_getElem?_getD, hc] at hw
          simpa using hw
    · intro c hc
      rcases h4 with h0 | hw
      · have hnil : text.drop (i + w.length) = [] :=
          List.drop_eq_nil_of_le (le_of_eq h0.symm)
        rw [hnil] at hc
        simp at hc
      · rw [List.head?_drop] at hc
        rw [List.getD_eq_getElem?_getD, hc] at hw
        simpa using hw
  · rintro ⟨pre, post, heq, hpre, hpost⟩
    have hlen : text.length = pre.length + (w.length + post.length) := by
      rw [heq]
      simp [List.length_append]
    refine ⟨pre.length, ?_, ?_⟩
    · rw [List.mem_range]
      omega
    · rw [matchesAt_iff]
      refine ⟨by omega, ?_, ?_, ?_⟩
      · rw [heq, List.append_assoc, List.drop_left, List.take_left]
      · by_cases hp : pre = []
        · left
          simp [hp]
        · right
          have hval : text[pre.length - 1]? = some (pre.getLast hp) := by
            rw [heq, List.append_assoc, List.getElem?_append_left (by
              have := List.length_pos.mpr hp
              omega)]
            rw [← List.getLast?_eq_getElem?, List.getLast?_eq_getLast pre hp]
          rw [List.getD_eq_getElem?_getD, hval]
          simp only [Option.getD_some]
          exact hpre _ (List.getLast?_eq_getLast pre hp)
      · by_cases hq : post = []
        · left
          rw [hq] at hlen
          simp at hlen
          omega
        · right
          obtain ⟨c0, post', rfl⟩ := List.exists_cons_of_ne_nil hq
          have hval : text[pre.length + w.length]? = some c0 := by
            rw [heq, List.append_assoc,
              List.getElem?_append_right (Nat.le_add_right _ _)]
            have e : pre.length + w.length - pre.length = w.length := by omega
            rw [e, List.getElem?_append_right (le_refl _), Nat.sub_self]
            simp
          rw [List.getD_eq_getElem?_getD, hval]
          simp only [Option.getD_some]
          exact hpost c0 rfl

theorem sliceLoop_false_eq_filter {α : Type} (keep : List Char → Bool) :
    ∀ (occs : List (α × List Char)) (seen : List (List Char)),
      sliceLoop false keep occs seen = occs.filter (fun o => keep o.2) := by
  intro occs
  induction occs with
  | nil => intro seen; simp [sliceLoop]
  | cons o rest ih =>
    intro seen
    by_cases hk : keep o.2
    · simp [sliceLoop, hk, List.filter_cons, ih]
    · simp [sliceLoop, hk, List.filter_cons, ih]

/-- C5: an occurrence survives the filter step iff its sentence contains the
suffix-stripped target word as a whole-word (word-boundary) match — for
targets whose stripped form is a nonempty run of word characters, the domain
on which the embedding of `\b...\b` is faithful; and on the concrete sentences
of the claim with target "plane", exactly sentences 1 and 3 survive while
"airplane noise" is excluded. -/
theorem C5_filter_whole_word {α : Type} (tw : List Char)
    (occs : List (α × List Char)) (o : α × List Char)
    (_hne : stripPos tw ≠ [])
    (_hchars : ∀ c ∈ stripPos tw, isWordChar c = true) :
    (o ∈ processSlice false tw occs ↔
      o ∈ occs ∧ WholeWordMatch (stripPos tw) o.2) ∧
    processSlice false "plane".toList
        [((1 : ℕ), "a plane flew".toList), ((2 : ℕ), "airplane noise".toList),
          ((3 : ℕ), "the plane landed".toList)] =
      [((1 : ℕ), "a plane flew".toList), ((3 : ℕ), "the plane landed".toList)] := by
  constructor
  · rw [processSlice, sliceLoop_false_eq_filter]
    rw [List.mem_filter]
    exact and_congr_right (fun _ => containsWholeWord_iff _ _)
  · rfl

/-- Witness for C5 at the target word "plane" and the claim's sentences. -/
theorem C5_witness :
    (stripPos "plane".toList ≠ [] ∧
      ∀ c ∈ stripPos "plane".toList, isWordChar c = true) ∧
    ((((1 : ℕ), "a plane flew".toList) ∈ processSlice false "plane".toList
        [((1 : ℕ), "a plane flew".toList), ((2 : ℕ), "airplane noise".toList),
          ((3 : ℕ), "the plane landed".toList)] ↔
      ((1 : ℕ), "a plane flew".toList) ∈
        ([((1 : ℕ), "a plane flew".toList), ((2 : ℕ), "airplane noise".toList),
          ((3 : ℕ), "the plane landed".toList)] : List (ℕ × List Char)) ∧
        WholeWordMatch (stripPos "plane".toList) "a plane flew".toList) ∧
    processSlice false "plane".toList
        [((1 : ℕ), "a plane flew".toList), ((2 : ℕ), "airplane noise".toList),
          ((3 : ℕ), "the plane landed".toList)] =
      [((1 : ℕ), "a plane flew".toList), ((3 : ℕ), "the plane landed".toList)]) :=
  ⟨⟨by decide, by decide⟩,
    C5_filter_whole_word "plane".toList
      [((1 : ℕ), "a plane flew".toList), ((2 : ℕ), "airplane noise".toList),
        ((3 : ℕ), "the plane landed".toList)]
      ((1 : ℕ), "a plane flew".toList) (by decide) (by decide)⟩

end SemEval
